import Mathlib

/-!
Verification of the rule-evaluation core of a Mamdani-style fuzzy inference
engine (membership functions, linguistic variables, `FuzzyRule`).

All numeric values are modelled as rationals (`ℚ`); sequences as `List ℚ`;
Python dictionaries (crisp-input maps, label→MF mappings) as association
lists in insertion order, matching Python's preserved dict iteration order;
code that can raise (asserting constructors, `KeyError`, `AttributeError`,
`IndexError`) returns `Except String _` or `Option _`.
-/

namespace FuzzySystems

/-- A membership function given by its raw sample points: field-for-field the
`FreeShapeMF` data (`in_values`, `mf_values`) that `fuzzy_rule.py` and
`singleton_mf.py` read. -/
structure FreeShapeMF where
  in_values : List ℚ
  mf_values : List ℚ
deriving DecidableEq, Repr

/-- Walks consecutive sample pairs and linearly interpolates inside the first
interval `[x0, x1)` containing `x`; once past the last point, returns the last
sample value. Mirrors `np.interp`'s clamped piecewise-linear semantics,
including its behavior on a repeated abscissa (the rightmost duplicate's
value is returned at and beyond the duplicated point). -/
def npInterpAux (x : ℚ) : List (ℚ × ℚ) → ℚ
  | [] => 0
  | [(_, y0)] => y0
  | (x0, y0) :: (x1, y1) :: rest =>
      if x < x1 then y0 + (y1 - y0) * (x - x0) / (x1 - x0)
      else npInterpAux x ((x1, y1) :: rest)

/-- `np.interp(x, xp, fp)`: clamped piecewise-linear interpolation of the
samples `(xp, fp)` at `x`. Values left of the first point clamp to `fp[0]`;
the rest is handled by `npInterpAux`. -/
def npInterp (x : ℚ) (xp fp : List ℚ) : ℚ :=
  match xp, fp with
  | x0 :: _, y0 :: _ => if x < x0 then y0 else npInterpAux x (xp.zip fp)
  | _, _ => 0

/-- A membership-function object as the rule engine sees it: either a
plain `FreeShapeMF` (also covering `LinPWMF`, which merely pre-assembles the
point lists) or the `SingletonMF` subclass, which stores its defining
point and overrides `fuzzify`. -/
inductive MF where
  | free : FreeShapeMF → MF
  | singleton : ℚ → MF
deriving DecidableEq, Repr

/-- The `in_values` attribute. `SingletonMF.__init__` stores `[x, x]`
(`singleton_mf.py`). -/
def MF.in_values : MF → List ℚ
  | .free f => f.in_values
  | .singleton x => [x, x]

/-- The `mf_values` attribute. `SingletonMF.__init__` stores `[0, 1]`
(`singleton_mf.py`). -/
def MF.mf_values : MF → List ℚ
  | .free f => f.mf_values
  | .singleton _ => [0, 1]

/-- Dynamic dispatch of the `fuzzify` method.
For the free-shape case: Modelled from the spec: `free_shape_mf.py` is not in
the sources; the spec states `fuzzify(x)` "returns the piecewise-linear
interpolation of the function at `x`, using the stored `(in_values,
mf_values)` samples", clamped outside the domain — i.e. exactly `np.interp`.
For the singleton case: `SingletonMF.fuzzify` (`singleton_mf.py`) returns 1
iff the input equals `_in_values[0]`, the defining point, else 0. -/
def MF.fuzzify : MF → ℚ → ℚ
  | .free f, v => npInterp v f.in_values f.mf_values
  | .singleton x, v => if v = x then 1 else 0

/-- Modelled from the spec: `lin_piece_wise_mf.py` is not in the sources; the
spec states `LinPWMF` "constructs a FreeShapeMF from the collected x-sequence
and y-sequence, in the given order", with no ordering check. -/
def linPWMF (points : List (ℚ × ℚ)) : FreeShapeMF :=
  ⟨points.map Prod.fst, points.map Prod.snd⟩

/-- Modelled from the spec: `linguistic_variable.py` is not in the sources;
the spec states a `LinguisticVariable` "exposes `name` and a
label→MembershipFunction mapping (`ling_values`)" with unique keys and
preserved insertion order. -/
structure LinguisticVariable where
  name : String
  ling_values : List (String × MF)
deriving DecidableEq, Repr

/-- Dictionary lookup `lv.ling_values[label]` (also `lv[label]`, which the
spec exposes as the same mapping): `none` models a raised `KeyError`. -/
def lvLookup (lv : LinguisticVariable) (label : String) : Option MF :=
  (lv.ling_values.find? (fun p => p.1 == label)).map Prod.snd

/-- Modelled from the spec: `fuzzy_rule_element.py` is not in the sources; the
spec states an Antecedent is `(lv_name: LinguisticVariable, lv_value: label,
is_not: bool)`. Note `lv_name` holds the variable object itself, as the
source's `ant.lv_name.name` / `ant.lv_name.ling_values` accesses show. -/
structure Antecedent where
  lv_name : LinguisticVariable
  lv_value : String
  is_not : Bool
deriving DecidableEq, Repr

/-- Modelled from the spec: `fuzzy_rule_element.py` is not in the sources; the
spec states a Consequent is `(lv_name: LinguisticVariable, lv_value: label)`. -/
structure Consequent where
  lv_name : LinguisticVariable
  lv_value : String
deriving DecidableEq, Repr

/-- A fuzzy rule: antecedents, the antecedent-activation operator pair
(function, display name), consequents, and the implication operator pair.
The Python callables take a 2-element list; they are embedded as binary
functions on ℚ. -/
structure FuzzyRule where
  ants : List Antecedent
  ant_act_func : (ℚ → ℚ → ℚ) × String
  cons : List Consequent
  impl_func : (ℚ → ℚ → ℚ) × String

/-- The loop body of `FuzzyRule.fuzzify` (`fuzzy_rule.py`): for each crisp
input entry in dict order, linearly scan the antecedents for the first whose
LV name matches (`break`); if none matches, skip the entry (`continue`);
otherwise look up the antecedent's label in the LV's `ling_values` (a
possible `KeyError`, modelled as `Except.error`), compute
`np.interp(crisp_input, mf.in_values, mf.mf_values)`, complement it as
`1 - d` when `is_not`, and append it. -/
def fuzzifyLoop (ants : List Antecedent) : List (String × ℚ) → Except String (List ℚ)
  | [] => .ok []
  | (lv_name, crisp_input) :: rest =>
    match ants.find? (fun a => a.lv_name.name == lv_name) with
    | none => fuzzifyLoop ants rest
    | some a =>
      match lvLookup a.lv_name a.lv_value with
      | none => .error "KeyError"
      | some mf =>
        let d := npInterp crisp_input mf.in_values mf.mf_values
        let d' := if a.is_not then 1 - d else d
        (fuzzifyLoop ants rest).map (fun ds => d' :: ds)

/-- `FuzzyRule.fuzzify(crisp_inputs)` (`fuzzy_rule.py`). -/
def FuzzyRule.fuzzify (rule : FuzzyRule) (crisp_inputs : List (String × ℚ)) :
    Except String (List ℚ) :=
  fuzzifyLoop rule.ants crisp_inputs

/-- Specification-side view of one `fuzzify` entry (follows the spec's words,
for comparison against `fuzzifyLoop`): the matching entries of the input map
are the ones some antecedent's linguistic-variable name matches. -/
def matchedEntries (ants : List Antecedent) (inputs : List (String × ℚ)) :
    List (String × ℚ) :=
  inputs.filter (fun nv => (ants.find? (fun a => a.lv_name.name == nv.1)).isSome)

/-- Specification-side view (follows the spec's words): the degree an input
entry contributes — the first matching antecedent's membership function,
interpolated at the value, complemented under the negation flag. -/
def entryDegree (ants : List Antecedent) (nv : String × ℚ) : Except String ℚ :=
  match ants.find? (fun a => a.lv_name.name == nv.1) with
  | none => .error "no matching antecedent"
  | some a =>
    match lvLookup a.lv_name a.lv_value with
    | none => .error "KeyError"
    | some mf =>
      let d := npInterp nv.2 mf.in_values mf.mf_values
      .ok (if a.is_not then 1 - d else d)

/-- Specification-side view (follows the spec's words): one degree per entry,
in the entries' order, failing where an entry's degree fails. -/
def specDegrees (ants : List Antecedent) : List (String × ℚ) → Except String (List ℚ)
  | [] => .ok []
  | nv :: rest =>
    match entryDegree ants nv with
    | .error e => .error e
    | .ok d => (specDegrees ants rest).map (fun ds => d :: ds)

/-- `FuzzyRule.activate(fuzzified_inputs)` (`fuzzy_rule.py`): seed the
accumulator with `fuzzified_inputs[0]` (an `IndexError`, modelled as `none`,
when the list is empty), then slide a window of size 2 applying the
activation function — a left fold over the tail. -/
def FuzzyRule.activate (rule : FuzzyRule) (fuzzified_inputs : List ℚ) : Option ℚ :=
  match fuzzified_inputs with
  | [] => none
  | x :: xs => some (xs.foldl rule.ant_act_func.1 x)

/-- The per-consequent step of `FuzzyRule.implicate` (`fuzzy_rule.py`): a new
`FreeShapeMF` with the (deep-copied, hence equal) `in_values` of the
consequent's membership function and each degree `val` replaced by
`impl_func([val, antecedents_activation])`. -/
def implicateOne (impl_func : ℚ → ℚ → ℚ) (antecedents_activation : ℚ)
    (mf : MF) : FreeShapeMF :=
  ⟨mf.in_values, mf.mf_values.map (fun val => impl_func val antecedents_activation)⟩

/-- A `defaultdict(list)` keyed by strings, modelled as an association list
in key-insertion order (Python dicts preserve insertion order). -/
abbrev ImplicatedDict := List (String × List FreeShapeMF)

/-- `implicated_consequents[k].append(v)` on a `defaultdict(list)`: append `v`
to the list of the (unique) entry with key `k`, or insert a new entry
`(k, [v])` at the end when `k` is absent. -/
def dictAppend (d : ImplicatedDict) (k : String) (v : FreeShapeMF) :
    ImplicatedDict :=
  match d with
  | [] => [(k, [v])]
  | (k0, vs) :: rest =>
    if k0 = k then (k0, vs ++ [v]) :: rest
    else (k0, vs) :: dictAppend rest k v

/-- Dictionary read `d[k]`, with the `defaultdict` default `[]` for an absent
key. -/
def dictGetD (d : ImplicatedDict) (k : String) : List FreeShapeMF :=
  match d with
  | [] => []
  | (k0, vs) :: rest => if k0 = k then vs else dictGetD rest k

/-- The loop of `FuzzyRule.implicate` (`fuzzy_rule.py`): for each consequent
in declaration order, resolve `con.lv_name[con.lv_value]` (a possible
`KeyError`, modelled as `Except.error`) and append the implicated
`FreeShapeMF` to `implicated_consequents[con.lv_name.name]`. -/
def implicateAux (impl_func : ℚ → ℚ → ℚ) (antecedents_activation : ℚ)
    (acc : ImplicatedDict) :
    List Consequent → Except String ImplicatedDict
  | [] => .ok acc
  | con :: rest =>
    match lvLookup con.lv_name con.lv_value with
    | none => .error "KeyError"
    | some mf =>
      implicateAux impl_func antecedents_activation
        (dictAppend acc con.lv_name.name
          (implicateOne impl_func antecedents_activation mf))
        rest

/-- `FuzzyRule.implicate(antecedents_activation)` (`fuzzy_rule.py`). -/
def FuzzyRule.implicate (rule : FuzzyRule) (antecedents_activation : ℚ) :
    Except String ImplicatedDict :=
  implicateAux rule.impl_func.1 antecedents_activation [] rule.cons

/-- Attribute access `label.name` where `label` is a Python `str`: strings
have no attribute `name`, so this always raises `AttributeError`. -/
def labelNameAttr (_label : String) : Except String String :=
  .error "AttributeError"

/-- `FuzzyRule.get_output_variable_names` (`fuzzy_rule.py`): the list
comprehension `[con.lv_value.name for con in self.consequents]` — note it
reads `.name` on `lv_value` (the label string), not on `lv_name`. -/
def getOutputVariableNames : List Consequent → Except String (List String)
  | [] => .ok []
  | con :: rest =>
    match labelNameAttr con.lv_value with
    | .error e => .error e
    | .ok n => (getOutputVariableNames rest).map (fun ns => n :: ns)

/-- `ThreePointsLV.__init__` (`three_points_lv.py`): asserts
`p1 < p2 < p3` (a caller-visible `AssertionError`, modelled as
`Except.error`), then builds the three-label variable from `LinPWMF`s. -/
def threePointsLV (name : String) (p1 p2 p3 : ℚ)
    (n1 n2 n3 : String) :
    Except String LinguisticVariable :=
  if p1 < p2 ∧ p2 < p3 then
    .ok ⟨name, [(n1, .free (linPWMF [(p1, 1), (p2, 0)])),
                (n2, .free (linPWMF [(p1, 0), (p2, 1), (p3, 0)])),
                (n3, .free (linPWMF [(p2, 0), (p3, 1)]))]⟩
  else .error "Points values have to be given in the increasing order"

/-- `TwoPointsPDLV.__init__` (`two_points_lv.py`): builds the two-label
variable from point `p` and distance `d`. The source performs no check on
`d` (or on anything else), so construction never fails. -/
def twoPointsPDLV (name : String) (p d : ℚ)
    (n1 n2 : String) :
    Except String LinguisticVariable :=
  .ok ⟨name, [(n1, .free (linPWMF [(p, 1), (p + d, 0)])),
              (n2, .free (linPWMF [(p, 0), (p + d, 1)]))]⟩

end FuzzySystems

namespace FuzzySystems

/-! ### Helper lemmas -/

lemma find?_append_left_none {α} (p : α → Bool) (pre l : List α)
    (h : ∀ b ∈ pre, p b = false) : (pre ++ l).find? p = l.find? p := by
  rw [List.find?_append]
  have hpre : pre.find? p = none := by
    rw [List.find?_eq_none]
    intro x hx
    simp [h x hx]
  rw [hpre, Option.none_or]

lemma dictGetD_dictAppend (d : ImplicatedDict) (k : String) (v : FreeShapeMF)
    (q : String) :
    dictGetD (dictAppend d k v) q =
      if q = k then dictGetD d q ++ [v] else dictGetD d q := by
  induction d with
  | nil =>
    by_cases hqk : q = k
    · subst hqk
      simp [dictAppend, dictGetD]
    · rw [if_neg hqk]
      simp [dictAppend, dictGetD, if_neg (fun h : k = q => hqk h.symm)]
  | cons hd tl ih =>
    obtain ⟨k0, vs⟩ := hd
    by_cases hk0k : k0 = k
    · subst hk0k
      by_cases hqk : q = k0
      · subst hqk
        simp [dictAppend, dictGetD]
      · rw [if_neg hqk]
        simp [dictAppend, dictGetD,
          if_neg (fun h : k0 = q => hqk h.symm)]
    · by_cases hk0q : k0 = q
      · subst hk0q
        rw [if_neg (fun h : k0 = k => hk0k h)]
        simp [dictAppend, dictGetD, if_neg hk0k]
      · simp [dictAppend, dictGetD, if_neg hk0k, if_neg hk0q, ih]

lemma implicateAux_ok (f : ℚ → ℚ → ℚ) (act : ℚ) (cons : List Consequent) :
    ∀ (acc g : ImplicatedDict),
      implicateAux f act acc cons = .ok g →
      ∀ k, dictGetD g k = dictGetD acc k ++
        cons.filterMap (fun con =>
          (lvLookup con.lv_name con.lv_value).bind (fun mf =>
            if con.lv_name.name = k then some (implicateOne f act mf) else none)) := by
  induction cons with
  | nil =>
    intro acc g h k
    simp only [implicateAux] at h
    cases h
    simp
  | cons con rest ih =>
    intro acc g h k
    cases hlk : lvLookup con.lv_name con.lv_value with
    | none =>
      rw [implicateAux, hlk] at h
      exact Except.noConfusion h
    | some mf =>
      rw [implicateAux, hlk] at h
      have hrec := ih _ g h k
      rw [hrec, dictGetD_dictAppend]
      by_cases hk : con.lv_name.name = k
      · subst hk
        simp [hlk, List.append_assoc]
      · rw [if_neg (fun h : k = con.lv_name.name => hk h.symm)]
        simp [hlk, if_neg hk]

lemma fuzzifyLoop_single (ants : List Antecedent) (name : String) (v : ℚ)
    (a : Antecedent) (mf : MF)
    (h1 : ants.find? (fun b => b.lv_name.name == name) = some a)
    (h2 : lvLookup a.lv_name a.lv_value = some mf) :
    fuzzifyLoop ants [(name, v)] =
      .ok [if a.is_not then 1 - npInterp v mf.in_values mf.mf_values
           else npInterp v mf.in_values mf.mf_values] := by
  simp [fuzzifyLoop, h1, h2, Except.map]

/-! ### Claim theorems -/

/-- C1 counterexample: for the rule antecedent "T is at5" backed by
`SingletonMF(5)`, the crisp input `{"T": 6}` fuzzifies to degree 1, while
`SingletonMF.fuzzify(6)` is 0 — `FuzzyRule.fuzzify` does not go through the
membership function's own `fuzzify` method. -/
theorem fuzzify_singleton_override_counterexample :
    fuzzifyLoop [⟨⟨"T", [("at5", MF.singleton 5)]⟩, "at5", false⟩] [("T", 6)]
      = .ok [1]
    ∧ (MF.singleton 5).fuzzify 6 = 0
    ∧ fuzzifyLoop [⟨⟨"T", [("at5", MF.singleton 5)]⟩, "at5", false⟩] [("T", 6)]
        ≠ .ok [(MF.singleton 5).fuzzify 6] := by
  refine ⟨rfl, rfl, ?_⟩
  intro h
  simp [fuzzifyLoop, lvLookup, npInterp, npInterpAux, MF.fuzzify,
    MF.in_values, MF.mf_values, Except.map] at h
  exact absurd (h (by norm_num)) (by norm_num)

/-- C1 (amended): for every crisp-input entry that matches an antecedent,
`FuzzyRule.fuzzify` computes the degree as `np.interp` over the matched
membership function's stored `(in_values, mf_values)` samples, bypassing any
`fuzzify` override; in particular for a `SingletonMF` at point `x` the
rule-level degree is 0 for values below `x` and 1 at and above `x` — not the
all-or-nothing indicator. -/
theorem fuzzify_interpolates_raw_samples (ants : List Antecedent)
    (name : String) (v : ℚ) (a : Antecedent) (mf : MF)
    (h1 : ants.find? (fun b => b.lv_name.name == name) = some a)
    (h2 : lvLookup a.lv_name a.lv_value = some mf)
    (h3 : a.is_not = false) :
    fuzzifyLoop ants [(name, v)] = .ok [npInterp v mf.in_values mf.mf_values]
    ∧ ∀ x : ℚ, npInterp v (MF.singleton x).in_values (MF.singleton x).mf_values
        = if v < x then 0 else 1 := by
  constructor
  · rw [fuzzifyLoop_single ants name v a mf h1 h2, h3]
    simp
  · intro x
    by_cases hvx : v < x <;>
      simp [npInterp, npInterpAux, MF.in_values, MF.mf_values, hvx]

/-- C1 witness: the amended theorem applied to a concrete one-antecedent
rule over a free-shape membership function. -/
theorem fuzzify_interpolates_raw_samples_witness :
    fuzzifyLoop [⟨⟨"T", [("lab", MF.free ⟨[0, 10], [0, 1]⟩)]⟩, "lab", false⟩]
        [("T", 6)]
      = .ok [npInterp 6 (MF.free ⟨[0, 10], [0, 1]⟩).in_values
               (MF.free ⟨[0, 10], [0, 1]⟩).mf_values] :=
  (fuzzify_interpolates_raw_samples
    [⟨⟨"T", [("lab", MF.free ⟨[0, 10], [0, 1]⟩)]⟩, "lab", false⟩] "T" 6
    ⟨⟨"T", [("lab", MF.free ⟨[0, 10], [0, 1]⟩)]⟩, "lab", false⟩
    (MF.free ⟨[0, 10], [0, 1]⟩) rfl rfl rfl).1

/-- C2: `FuzzyRule.activate` returns the left fold of the fuzzified inputs
under the configured aggregation function, seeded with the first element; a
one-element list is returned unchanged, and the empty list has no result
(the `fuzzified_inputs[0]` access raises, modelled as `none`). -/
theorem activate_is_left_fold (rule : FuzzyRule) (x d : ℚ) (xs : List ℚ) :
    rule.activate [] = none
    ∧ rule.activate [d] = some d
    ∧ rule.activate (x :: xs) = some (xs.foldl rule.ant_act_func.1 x) :=
  ⟨rfl, rfl, rfl⟩

/-- C3: for every rule, activation value, and consequent whose label
resolves to membership function `mf`, `FuzzyRule.implicate` builds a new
`FreeShapeMF` whose `in_values` equal `mf.in_values` and whose `mf_values`
replace each degree `d` by `implication_function(d, activation)`; that new
function is placed in the returned mapping under the consequent's variable
name (the original `mf` is a value of the immutable model and is unchanged). -/
theorem implicate_builds_transformed_mf (rule : FuzzyRule) (act : ℚ)
    (con : Consequent) (mf : MF)
    (h1 : con ∈ rule.cons)
    (h2 : lvLookup con.lv_name con.lv_value = some mf) :
    (implicateOne rule.impl_func.1 act mf).in_values = mf.in_values
    ∧ (implicateOne rule.impl_func.1 act mf).mf_values
        = mf.mf_values.map (fun d => rule.impl_func.1 d act)
    ∧ ∀ g, rule.implicate act = .ok g →
        implicateOne rule.impl_func.1 act mf ∈ dictGetD g con.lv_name.name := by
  refine ⟨rfl, rfl, fun g hg => ?_⟩
  have h := implicateAux_ok rule.impl_func.1 act rule.cons [] g hg con.lv_name.name
  rw [h]
  simp only [dictGetD, List.nil_append]
  exact List.mem_filterMap.mpr ⟨con, h1, by simp [h2]⟩

/-- C3 witness: product implication at activation 3/5 on a consequent
membership function with `mf_values = [0, 1, 0]` yields the same `in_values`
and `mf_values = [0, 3/5, 0]`. -/
theorem implicate_builds_transformed_mf_witness :
    (implicateOne (fun a b => a * b) (3/5) (MF.free ⟨[0, 1, 2], [0, 1, 0]⟩)).in_values
      = [0, 1, 2]
    ∧ (implicateOne (fun a b => a * b) (3/5) (MF.free ⟨[0, 1, 2], [0, 1, 0]⟩)).mf_values
      = [0, 3/5, 0] := by
  have h := implicate_builds_transformed_mf
    ⟨[], (fun a b => a * b, "AND_min"),
     [⟨⟨"power", [("mid", MF.free ⟨[0, 1, 2], [0, 1, 0]⟩)]⟩, "mid"⟩],
     (fun a b => a * b, "product")⟩
    (3/5)
    ⟨⟨"power", [("mid", MF.free ⟨[0, 1, 2], [0, 1, 0]⟩)]⟩, "mid"⟩
    (MF.free ⟨[0, 1, 2], [0, 1, 0]⟩)
    (List.mem_cons_self _ _) rfl
  refine ⟨h.1, h.2.1.trans ?_⟩
  norm_num [MF.mf_values]

/-- C4: the mapping `FuzzyRule.implicate` returns is keyed by consequent
variable name, and the value under each name is the ordered list of the
implicated membership functions of exactly the consequents on that variable,
in consequent declaration order. -/
theorem implicate_groups_by_variable (rule : FuzzyRule) (act : ℚ)
    (g : ImplicatedDict) (h : rule.implicate act = .ok g) (k : String) :
    dictGetD g k = rule.cons.filterMap (fun con =>
      (lvLookup con.lv_name con.lv_value).bind (fun mf =>
        if con.lv_name.name = k then some (implicateOne rule.impl_func.1 act mf)
        else none)) := by
  have hh := implicateAux_ok rule.impl_func.1 act rule.cons [] g h k
  rw [hh]
  simp [dictGetD]

/-- C4 witness: a rule with two consequents on variable "power" (labels
"low" and "high") produces the single dictionary entry `"power"` holding the
two implicated functions in declaration order. -/
theorem implicate_groups_by_variable_witness :
    dictGetD [("power", [(⟨[0, 1], [1/2, 0]⟩ : FreeShapeMF), ⟨[0, 1], [0, 1/2]⟩])]
        "power"
      = [(⟨[0, 1], [1/2, 0]⟩ : FreeShapeMF), ⟨[0, 1], [0, 1/2]⟩] := by
  have h := implicate_groups_by_variable
    ⟨[], (fun a b => a * b, "AND_min"),
     [⟨⟨"power", [("low", MF.free ⟨[0, 1], [1, 0]⟩),
                  ("high", MF.free ⟨[0, 1], [0, 1]⟩)]⟩, "low"⟩,
      ⟨⟨"power", [("low", MF.free ⟨[0, 1], [1, 0]⟩),
                  ("high", MF.free ⟨[0, 1], [0, 1]⟩)]⟩, "high"⟩],
     (fun a b => a * b, "product")⟩
    (1/2)
    [("power", [(⟨[0, 1], [1/2, 0]⟩ : FreeShapeMF), ⟨[0, 1], [0, 1/2]⟩])]
    (by simp [FuzzyRule.implicate, implicateAux, lvLookup, implicateOne,
      dictAppend, MF.in_values, MF.mf_values, List.find?])
    "power"
  rw [h]
  simp [lvLookup, implicateOne, MF.in_values, MF.mf_values, List.find?,
    List.filterMap]

/-- C5: for a crisp-input key, `FuzzyRule.fuzzify` uses only the first
antecedent (in declaration order) whose linguistic-variable name matches the
key: the antecedent scan returns that antecedent, and the result for the
entry is the same whatever antecedents follow it. -/
theorem fuzzify_first_match_wins (pre post : List Antecedent) (a : Antecedent)
    (name : String) (v : ℚ)
    (h1 : a.lv_name.name = name)
    (h2 : ∀ b ∈ pre, b.lv_name.name ≠ name) :
    (pre ++ a :: post).find? (fun b => b.lv_name.name == name) = some a
    ∧ fuzzifyLoop (pre ++ a :: post) [(name, v)] = fuzzifyLoop [a] [(name, v)] := by
  have hfind : (pre ++ a :: post).find? (fun b => b.lv_name.name == name)
      = some a := by
    rw [find?_append_left_none _ pre _ (fun b hb => by simp [h2 b hb])]
    exact List.find?_cons_of_pos _ (by simp [h1])
  have hfind1 : [a].find? (fun b => b.lv_name.name == name) = some a :=
    List.find?_cons_of_pos _ (by simp [h1])
  refine ⟨hfind, ?_⟩
  simp only [fuzzifyLoop, hfind, hfind1]

/-- C5 witness: a rule with two antecedents both named "temperature"
(labels "cold" and "hot") fuzzifies `{"temperature": 18}` exactly as the rule
with only the first-declared of the two. -/
theorem fuzzify_first_match_wins_witness :
    fuzzifyLoop
        [⟨⟨"humidity", [("wet", MF.free ⟨[0, 1], [0, 1]⟩)]⟩, "wet", false⟩,
         ⟨⟨"temperature", [("cold", MF.free ⟨[0, 20], [1, 0]⟩)]⟩, "cold", false⟩,
         ⟨⟨"temperature", [("hot", MF.free ⟨[0, 20], [0, 1]⟩)]⟩, "hot", false⟩]
        [("temperature", 18)]
      = fuzzifyLoop
          [⟨⟨"temperature", [("cold", MF.free ⟨[0, 20], [1, 0]⟩)]⟩, "cold", false⟩]
          [("temperature", 18)] :=
  (fuzzify_first_match_wins
    [⟨⟨"humidity", [("wet", MF.free ⟨[0, 1], [0, 1]⟩)]⟩, "wet", false⟩]
    [⟨⟨"temperature", [("hot", MF.free ⟨[0, 20], [0, 1]⟩)]⟩, "hot", false⟩]
    ⟨⟨"temperature", [("cold", MF.free ⟨[0, 20], [1, 0]⟩)]⟩, "cold", false⟩
    "temperature" 18 rfl (by decide)).2

/-- C6 counterexample: `TwoPointsPDLV("T", p=0, d=-1)` — a non-positive
distance, so the defining points are not strictly increasing — constructs
successfully (the source has no check), contradicting the claim that
construction fails. -/
theorem twoPointsPDLV_negative_distance_succeeds :
    (twoPointsPDLV "T" 0 (-1) "low" "high").isOk = true
    ∧ twoPointsPDLV "T" 0 (-1) "low" "high"
        = .ok ⟨"T", [("low", .free ⟨[0, -1], [1, 0]⟩),
                     ("high", .free ⟨[0, -1], [0, 1]⟩)]⟩ := by
  constructor
  · rfl
  · norm_num [twoPointsPDLV, linPWMF]

/-- C6 (amended): `ThreePointsLV` construction fails exactly when its
points are not strictly increasing, and succeeds otherwise; `TwoPointsPDLV`
performs no ordering check and construction succeeds for every point and
distance, non-positive distances included. -/
theorem builder_ordering_checks (name : String) (p1 p2 p3 p d : ℚ)
    (n1 n2 n3 m1 m2 : String) :
    ((threePointsLV name p1 p2 p3 n1 n2 n3).isOk = true ↔ p1 < p2 ∧ p2 < p3)
    ∧ (twoPointsPDLV name p d m1 m2).isOk = true := by
  constructor
  · unfold threePointsLV
    split
    · next hlt => simp [Except.isOk, Except.toBool, hlt]
    · next hlt => simp [Except.isOk, Except.toBool, hlt]
  · rfl

/-- C7: `FuzzyRule.fuzzify` silently skips input entries matching no
antecedent — the result equals the per-entry degrees of exactly the matching
entries, one degree per matching entry, in the input mapping's iteration
order (skipped entries raise nothing and contribute nothing). -/
theorem fuzzify_skips_unmatched_inputs (ants : List Antecedent)
    (inputs : List (String × ℚ)) :
    fuzzifyLoop ants inputs = specDegrees ants (matchedEntries ants inputs) := by
  induction inputs with
  | nil => simp [fuzzifyLoop, matchedEntries, specDegrees]
  | cons nv rest ih =>
    obtain ⟨name, v⟩ := nv
    cases hfind : ants.find? (fun a => a.lv_name.name == name) with
    | none =>
      simp only [fuzzifyLoop, hfind]
      rw [ih]
      simp [matchedEntries, hfind]
    | some a =>
      cases hlk : lvLookup a.lv_name a.lv_value with
      | none =>
        simp [fuzzifyLoop, hfind, hlk, matchedEntries, specDegrees, entryDegree]
      | some mf =>
        simp only [fuzzifyLoop, hfind, hlk]
        rw [ih]
        simp [matchedEntries, specDegrees, entryDegree, hfind, hlk]

/-- C8: when the first matching antecedent carries the negation flag, the
degree `FuzzyRule.fuzzify` appends is the complement `1 - d` of the raw
interpolated degree `d`. -/
theorem fuzzify_negation_complement (ants : List Antecedent) (name : String)
    (v : ℚ) (a : Antecedent) (mf : MF)
    (h1 : ants.find? (fun b => b.lv_name.name == name) = some a)
    (h2 : a.is_not = true)
    (h3 : lvLookup a.lv_name a.lv_value = some mf) :
    fuzzifyLoop ants [(name, v)]
      = .ok [1 - npInterp v mf.in_values mf.mf_values] := by
  rw [fuzzifyLoop_single ants name v a mf h1 h3, h2]
  simp

/-- C8 witness: a negated antecedent whose raw fuzzified degree is 3/10
contributes 7/10. -/
theorem fuzzify_negation_complement_witness :
    fuzzifyLoop [⟨⟨"T", [("lab", MF.free ⟨[0, 1], [0, 1]⟩)]⟩, "lab", true⟩]
        [("T", 3/10)]
      = .ok [7/10] :=
  (fuzzify_negation_complement
    [⟨⟨"T", [("lab", MF.free ⟨[0, 1], [0, 1]⟩)]⟩, "lab", true⟩] "T" (3/10)
    ⟨⟨"T", [("lab", MF.free ⟨[0, 1], [0, 1]⟩)]⟩, "lab", true⟩
    (MF.free ⟨[0, 1], [0, 1]⟩) rfl rfl rfl).trans
    (by norm_num [npInterp, npInterpAux, MF.in_values, MF.mf_values])

/-- C9: `SingletonMF(x).fuzzify(v)` is 1 when `v` equals `x` exactly and 0
otherwise — no tolerance, no interpolation — and the singleton is stored as
the degenerate two-point function `in_values = [x, x]`, `mf_values = [0, 1]`. -/
theorem singletonMF_exact_equality (x v : ℚ) :
    (MF.singleton x).fuzzify v = (if v = x then 1 else 0)
    ∧ (MF.singleton x).in_values = [x, x]
    ∧ (MF.singleton x).mf_values = [0, 1] :=
  ⟨rfl, rfl, rfl⟩

/-- C10: `FuzzyRule.get_output_variable_names` reads the attribute `.name`
on each consequent's label `lv_value`, a plain string, so it raises
`AttributeError` for every rule with at least one consequent; with no
consequents the comprehension is empty and it returns `[]`. -/
theorem getOutputVariableNames_attribute_error (cons : List Consequent) :
    getOutputVariableNames cons
      = if cons.isEmpty then .ok [] else .error "AttributeError" := by
  cases cons with
  | nil => rfl
  | cons con rest => rfl

end FuzzySystems
